import Mathlib

/-!
Shallow embedding of the covid-rumours-dashboard Streamlit application
(src/Dashboard.py and src/pages/About_the_data.py) and proofs about it.

Modelling conventions:
* pandas dataframes become Lean lists of structure values, one structure
  per row; dataframe operations (filter, rename, sort_values, groupby,
  drop_duplicates, concat) become the corresponding list operations,
  translated operation by operation from the source.
* networkx graphs become structures holding an ordered node list and an
  ordered edge list; `add_node`/`add_edge` follow networkx semantics
  (re-adding merges attributes, an edge is identified by its unordered
  endpoint pair).
* Python strings are Lean `String`s; `str.lower`/`str.casefold` are
  modelled on the basic-latin range (the range Lean's `Char.toLower`
  supports), `str.split()` splits on whitespace and drops empty pieces.
* `uuid.uuid4()` (fresh random identifiers) is modelled by a monotone
  counter threaded through the computation: each call returns the current
  counter value and bumps it.
* Python exceptions (KeyError, NameError, ValueError) become an `Except`
  result with an error code.
* Rational numbers stand in for the floating-point statistic columns
  (`f_xy`, `pmi`); the code only compares, sorts and copies these values.
-/

namespace CovidRumours

/-- Python exception kinds raised by the modelled code paths. -/
inductive PyErr where
  | keyError
  | nameError
  | valueError
deriving DecidableEq

/-! ## String helpers (Python str.lower / str.replace / str.split) -/

/-- Model of Python `str.lower` on the basic-latin range: lower-case every
character of the string (Dashboard.py line 140 and 147). -/
def pyLower (s : String) : String := ⟨s.data.map Char.toLower⟩

/-- Model of `str.replace('*', '')` (Dashboard.py line 147): remove every
asterisk character. -/
def stripAsterisks (s : String) : String := ⟨s.data.filter fun c => c ≠ '*'⟩

/-- Accumulator version of whitespace splitting: `cur` holds the reversed
characters of the pending word. -/
def splitWsAux : List Char → List Char → List (List Char)
  | cur, [] => if cur.isEmpty then [] else [cur.reverse]
  | cur, c :: rest =>
    if c.isWhitespace then
      if cur.isEmpty then splitWsAux [] rest else cur.reverse :: splitWsAux [] rest
    else splitWsAux (c :: cur) rest

/-- Model of Python `str.split()` with no argument (Dashboard.py line 146):
split on runs of whitespace, never producing empty words. -/
def pySplit (s : String) : List String := (splitWsAux [] s.data).map fun cs => ⟨cs⟩

/-- Boolean code-point lexicographic order on character lists, the order
Python uses to compare strings. -/
def lexLeChars : List Char → List Char → Bool
  | [], _ => true
  | _ :: _, [] => false
  | a :: as, b :: bs =>
    if a.toNat < b.toNat then true
    else if a.toNat = b.toNat then lexLeChars as bs
    else false

/-- Boolean code-point lexicographic order on strings. -/
def strLeB (a b : String) : Bool := lexLeChars a.data b.data

/-- Model of Python `str.casefold` as used by `sorted(..., key=str.casefold)`
(Dashboard.py line 232); on the basic-latin range casefolding is
lower-casing. -/
def caseFold (s : String) : String := pyLower s

/-- Comparison key order of `sorted(vocabularies, key=str.casefold)`:
case-insensitive lexicographic order on strings. -/
def caseLe (a b : String) : Prop := strLeB (caseFold a) (caseFold b) = true

instance : DecidableRel caseLe := fun _ _ => inferInstanceAs (Decidable (_ = true))

instance : IsTotal String caseLe :=
  ⟨fun a b => by
    unfold caseLe strLeB
    generalize (caseFold a).data = l
    generalize (caseFold b).data = m
    induction l generalizing m with
    | nil => left; rfl
    | cons x xs ih =>
      cases m with
      | nil => right; rfl
      | cons y ys =>
        rcases Nat.lt_trichotomy x.toNat y.toNat with h | h | h
        · left; simp [lexLeChars, h]
        · rcases ih ys with h2 | h2
          · left; simp [lexLeChars, h, h2]
          · right; simp [lexLeChars, h.symm, h2]
        · right; simp [lexLeChars, h]⟩

instance : IsTrans String caseLe :=
  ⟨fun a b c hab hbc => by
    unfold caseLe strLeB at hab hbc ⊢
    generalize hl : (caseFold a).data = l at hab
    generalize hm : (caseFold b).data = m at hab hbc
    generalize hn : (caseFold c).data = n at hbc
    clear hl hm hn
    induction l generalizing m n with
    | nil => rfl
    | cons x xs ih =>
      cases m with
      | nil => simp [lexLeChars] at hab
      | cons y ys =>
        cases n with
        | nil => simp [lexLeChars] at hbc
        | cons z zs =>
          simp only [lexLeChars] at hab hbc ⊢
          split at hab
          · split at hbc
            · simp [show x.toNat < z.toNat by omega]
            · split at hbc
              · simp [show x.toNat < z.toNat by omega]
              · exact absurd hbc (by simp)
          · split at hab
            · split at hbc
              · simp [show x.toNat < z.toNat by omega]
              · split at hbc
                · rw [if_neg (by omega), if_pos (by omega)]
                  exact ih ys hab zs hbc
                · exact absurd hbc (by simp)
            · exact absurd hab (by simp)⟩

/-! ## Collocation graph builder (Dashboard.py lines 234-274) -/

/-- One row of a bigrams dataframe: date, the two co-occurring words and the
two statistic columns (Dashboard.py line 247 and spec section 3). -/
structure BigramRow where
  date : String
  x : String
  y : String
  f_xy : ℚ
  pmi : ℚ
deriving DecidableEq

/-- A bigram row after `bigrams.drop(['date'], axis=1)` (Dashboard.py
line 247). -/
structure PairRow where
  x : String
  y : String
  f_xy : ℚ
  pmi : ℚ
deriving DecidableEq

/-- Dropping the `date` column from a bigram row (Dashboard.py line 247). -/
def PairRow.ofBigram (r : BigramRow) : PairRow := ⟨r.x, r.y, r.f_xy, r.pmi⟩

/-- The `@type` argument of `get_nx_collocation_graph`: the name of the
statistic column used for ranking, either `'f_xy'` or `'pmi'`
(Dashboard.py line 239 and the radio widget at lines 499-509). -/
inductive CollocType where
  | f_xy
  | pmi
deriving DecidableEq

/-- Reading the selected statistic column of a row. -/
def PairRow.metric : PairRow → CollocType → ℚ
  | r, .f_xy => r.f_xy
  | r, .pmi => r.pmi

/-- Accumulator version of pandas `drop_duplicates` (keep the first
occurrence); `seen` holds the rows already emitted. -/
def dropDuplicatesAux (seen : List PairRow) : List PairRow → List PairRow
  | [] => []
  | r :: rest =>
    if r ∈ seen then dropDuplicatesAux seen rest
    else r :: dropDuplicatesAux (r :: seen) rest

/-- Model of `DataFrame.drop_duplicates()` (Dashboard.py line 247): keep the
first occurrence of every row, preserving order. -/
def drop_duplicates (l : List PairRow) : List PairRow := dropDuplicatesAux [] l

/-- Row order of `sort_values(['x', type], ascending=False)` (Dashboard.py
line 259), as a Boolean: descending on the source word `x`, then descending
on the selected statistic. -/
def rowLeB (type : CollocType) (a b : PairRow) : Bool :=
  if a.x = b.x then decide (PairRow.metric b type ≤ PairRow.metric a type)
  else strLeB b.x a.x

/-- The sort order of Dashboard.py line 259 as a decidable relation; the
multi-column pandas sort is stable, as is the insertion sort it is
modelled with. -/
def rowLe (type : CollocType) (a b : PairRow) : Prop := rowLeB type a b = true

instance (type : CollocType) : DecidableRel (rowLe type) :=
  fun _ _ => inferInstanceAs (Decidable (_ = true))

/-- Accumulator version of `groupby('x').head(top)` (Dashboard.py line 262):
`seen` holds the `x` values of all rows already scanned, and a row is kept
exactly when fewer than `top` earlier rows share its `x` value. `head`
keeps the surviving rows in dataframe order. -/
def groupbyHeadAux (top : Nat) (seen : List String) : List PairRow → List PairRow
  | [] => []
  | r :: rest =>
    if seen.count r.x < top then r :: groupbyHeadAux top (r.x :: seen) rest
    else groupbyHeadAux top (r.x :: seen) rest

/-- Model of `df_collocates.groupby('x').head(top)` (Dashboard.py
line 262). -/
def groupbyHead (top : Nat) (l : List PairRow) : List PairRow := groupbyHeadAux top [] l

/-- A networkx undirected graph as built by `nx.from_pandas_edgelist`:
ordered node list and ordered edge list. Each edge stores its two
endpoints (in first-insertion orientation) and the value of the selected
statistic column, the single `edge_attr` of Dashboard.py line 272. -/
structure CollocGraph where
  nodes : List String
  edges : List (String × String × ℚ)
deriving DecidableEq

/-- networkx `Graph.add_node`: appends the node if it is not present. -/
def CollocGraph.addNode (g : CollocGraph) (v : String) : CollocGraph :=
  if v ∈ g.nodes then g else { g with nodes := g.nodes ++ [v] }

/-- Does the stored edge `e` connect the unordered pair `{u, v}`? networkx
identifies undirected edges up to swapping the endpoints. -/
def edgeMatches (e : String × String × ℚ) (u v : String) : Bool :=
  (e.1 == u && e.2.1 == v) || (e.1 == v && e.2.1 == u)

/-- networkx `Graph.add_edge u v`: adds missing endpoints as nodes, then
either updates the attribute of the existing edge on the unordered pair
`{u, v}` (attributes of a re-added edge are overwritten) or appends a new
edge. -/
def CollocGraph.addEdge (g : CollocGraph) (u v : String) (w : ℚ) : CollocGraph :=
  let g1 := (g.addNode u).addNode v
  if g1.edges.any fun e => edgeMatches e u v then
    { g1 with edges := g1.edges.map fun e => if edgeMatches e u v then (e.1, e.2.1, w) else e }
  else
    { g1 with edges := g1.edges ++ [(u, v, w)] }

/-- Model of `nx.from_pandas_edgelist(df_collocates, 'x', 'y',
edge_attr=[type])` (Dashboard.py line 272): add one edge per row, source
column `x`, target column `y`, carrying the selected statistic value. -/
def from_pandas_edgelist (rows : List PairRow) (type : CollocType) : CollocGraph :=
  rows.foldl (fun g r => g.addEdge r.x r.y (r.metric type)) { nodes := [], edges := [] }

/-- networkx node degree: the number of stored edges incident to `v`
(the concrete graphs this is applied to have no self-loops). -/
def CollocGraph.degree (g : CollocGraph) (v : String) : Nat :=
  g.edges.countP fun e => e.1 == v || e.2.1 == v

/-- Model of `get_nx_collocation_graph` (Dashboard.py lines 234-274):
drop the date column and duplicate rows, keep rows whose `x` (resp. `y`)
is a word to collocate — swapping the columns of the `y` matches so the
focus word is in the source position — sort by source word and statistic
descending, keep the top `top` rows per source word, and build the graph;
if no rows survive, build a graph of the focus words as isolated nodes. -/
def get_nx_collocation_graph (bigrams : List BigramRow) (words : List String)
    (type : CollocType) (top : Nat) : CollocGraph :=
  let df := drop_duplicates (bigrams.map PairRow.ofBigram)
  let x_collocates := df.filter fun r => decide (r.x ∈ words)
  let y_collocates := (df.filter fun r => decide (r.y ∈ words)).map fun r =>
    { r with x := r.y, y := r.x }
  let df_collocates := List.insertionSort (rowLe type) (x_collocates ++ y_collocates)
  let df_top := groupbyHead top df_collocates
  if df_top.isEmpty then
    words.foldl (fun g w => g.addNode w) { nodes := [], edges := [] }
  else
    from_pandas_edgelist df_top type

/-- Two stored edges connect the same unordered endpoint pair. -/
def sameUnorderedPair (e f : String × String × ℚ) : Prop :=
  (e.1 = f.1 ∧ e.2.1 = f.2.1) ∨ (e.1 = f.2.1 ∧ e.2.1 = f.1)

/-! ## Taxonomies (Dashboard.py lines 88-232) -/

/-- One value of the yaml taxonomy data (docstring of `tidy_taxonomies`,
Dashboard.py lines 95-126): a dictionary that may or may not carry each of
the keys `category` (a name), `vocabulary` (a list of phrases) and
`subcategories` (a nested list of values). An absent key is `none`. -/
inductive TaxEntry where
  | mk (category : Option String) (vocabulary : Option (List String))
      (subcategories : Option (List TaxEntry))

/-- A `{'name': ..., 'uuid': ...}` dictionary as built by `tidy_taxonomies`
(Dashboard.py lines 139-142 and 149-152), with `uuid.uuid4()` modelled by
a counter value. -/
structure TaxTerm where
  name : String
  uuid : Nat
deriving DecidableEq

/-- One entry of the output of `tidy_taxonomies`: each of the three keys is
present in the output exactly when it is present in the input. -/
inductive TidyEntry where
  | mk (category : Option TaxTerm) (vocabulary : Option (List TaxTerm))
      (subcategories : Option (List TidyEntry))

/-- The fixed stop-word list of `tidy_taxonomies` (Dashboard.py
lines 129-132). -/
def stopwords : List String := ["and", "&", "or"]

/-- Inner loop of the vocabulary branch of `tidy_taxonomies` (Dashboard.py
lines 145-152) over the words of one split phrase: lower-case the word,
strip asterisks, drop stop-words, and give each kept word a fresh uuid. -/
def tidyTokens : List String → Nat → List TaxTerm × Nat
  | [], c => ([], c)
  | w :: ws, c =>
    let word := stripAsterisks (pyLower w)
    if word ∈ stopwords then tidyTokens ws c
    else (⟨word, c⟩ :: (tidyTokens ws (c + 1)).1, (tidyTokens ws (c + 1)).2)

/-- Outer loop of the vocabulary branch of `tidy_taxonomies` (Dashboard.py
lines 145-152) over the phrases of a `vocabulary` list: split each phrase
into words and process the words in order. -/
def tidyVocabulary : List String → Nat → List TaxTerm × Nat
  | [], c => ([], c)
  | s :: ss, c =>
    let here := tidyTokens (pySplit s) c
    let there := tidyVocabulary ss here.2
    (here.1 ++ there.1, there.2)

/-- Model of `tidy_taxonomies` (Dashboard.py lines 88-157): lower-case
category names, tokenize vocabulary phrases, and recurse into
subcategories; every branch runs only when its key is present. The fresh
uuid supply is the threaded counter. -/
def tidy_taxonomies : List TaxEntry → Nat → List TidyEntry × Nat
  | [], c => ([], c)
  | .mk category vocabulary subcategories :: rest, c =>
    let catOut : Option TaxTerm :=
      match category with
      | some name => some ⟨pyLower name, c⟩
      | none => none
    let c1 : Nat :=
      match category with
      | some _ => c + 1
      | none => c
    let vocOut : Option (List TaxTerm) :=
      match vocabulary with
      | some phrases => some (tidyVocabulary phrases c1).1
      | none => none
    let c2 : Nat :=
      match vocabulary with
      | some phrases => (tidyVocabulary phrases c1).2
      | none => c1
    let subOut : Option (List TidyEntry) :=
      match subcategories with
      | some l => some (tidy_taxonomies l c2).1
      | none => none
    let c3 : Nat :=
      match subcategories with
      | some l => (tidy_taxonomies l c2).2
      | none => c2
    (TidyEntry.mk catOut vocOut subOut :: (tidy_taxonomies rest c3).1,
     (tidy_taxonomies rest c3).2)

/-- A node of the networkx taxonomy digraph: its identifier (a uuid), its
`label` attribute and its `type` attribute (`'category'` or
`'vocabulary'`), as set at Dashboard.py lines 202 and 207. -/
structure TaxNode where
  id : Nat
  label : String
  nodeType : String
deriving DecidableEq

/-- A networkx `DiGraph` over taxonomy nodes: ordered node list and ordered
directed edge list. -/
structure TaxGraph where
  nodes : List TaxNode
  edges : List (Nat × Nat)
deriving DecidableEq

/-- The empty digraph (`nx.DiGraph()` at Dashboard.py line 197). -/
def TaxGraph.empty : TaxGraph := ⟨[], []⟩

/-- Is `i` a node identifier of the graph (`graph.has_node`)? -/
def TaxGraph.hasNode (g : TaxGraph) (i : Nat) : Bool := g.nodes.any fun nd => nd.id == i

/-- networkx `DiGraph.add_node` with `label` and `type` attributes:
re-adding an existing node overwrites its attributes, otherwise the node
is appended. -/
def TaxGraph.addNode (g : TaxGraph) (i : Nat) (label nodeType : String) : TaxGraph :=
  if g.hasNode i then
    { g with nodes := g.nodes.map fun nd => if nd.id == i then ⟨i, label, nodeType⟩ else nd }
  else
    { g with nodes := g.nodes ++ [⟨i, label, nodeType⟩] }

/-- networkx `DiGraph.add_edge`: missing endpoints would be added without
attributes (modelled with empty `label`/`type`; every call site of the
taxonomy builder adds both endpoints before the edge), and a repeated
edge is not duplicated. -/
def TaxGraph.addEdge (g : TaxGraph) (u v : Nat) : TaxGraph :=
  let g1 := if g.hasNode u then g else { g with nodes := g.nodes ++ [⟨u, "", ""⟩] }
  let g2 := if g1.hasNode v then g1 else { g1 with nodes := g1.nodes ++ [⟨v, "", ""⟩] }
  if (u, v) ∈ g2.edges then g2 else { g2 with edges := g2.edges ++ [(u, v)] }

/-- Vocabulary branch of `get_nx_taxonomies_graph` (Dashboard.py
lines 205-208): for each vocabulary word, add its node and then an edge
from `value['category']['uuid']`; when the entry has no `category` key
that lookup raises `KeyError`. -/
def addVocabularyNodes (g : TaxGraph) (category : Option TaxTerm) :
    List TaxTerm → Except PyErr TaxGraph
  | [] => .ok g
  | t :: ts =>
    let g1 := g.addNode t.uuid t.name "vocabulary"
    match category with
    | some cat => addVocabularyNodes (g1.addEdge cat.uuid t.uuid) category ts
    | none => .error .keyError

/-- Model of `get_nx_taxonomies_graph` (Dashboard.py lines 187-212) on
tidied data: add a node per category (and an edge from the parent when one
is given), a node and an edge per vocabulary word, and recurse into
subcategories with the current category as parent. The vocabulary and
subcategories branches read `value['category']['uuid']` and therefore
raise `KeyError` when the `category` key is absent. -/
def get_nx_taxonomies_graph : List TidyEntry → TaxGraph → Option Nat → Except PyErr TaxGraph
  | [], g, _ => .ok g
  | .mk category vocabulary subcategories :: rest, g, parent =>
    let g1 :=
      match category with
      | some cat =>
        let gc := g.addNode cat.uuid cat.name "category"
        match parent with
        | some p => gc.addEdge p cat.uuid
        | none => gc
      | none => g
    (match vocabulary with
     | some ts => addVocabularyNodes g1 category ts
     | none => .ok g1).bind fun g2 =>
    (match subcategories with
     | some l =>
       match category with
       | some cat => get_nx_taxonomies_graph l g2 (some cat.uuid)
       | none => .error .keyError
     | none => .ok g2).bind fun g3 =>
    get_nx_taxonomies_graph rest g3 parent

/-- Bounded reachability along directed edges: is there a path from `a` to
`b` of length at most `fuel`? A shortest path repeats no node, hence no
edge, so `fuel := edges.length` decides plain reachability. -/
def reachesWithin (edges : List (Nat × Nat)) : Nat → Nat → Nat → Bool
  | 0, a, b => a == b
  | fuel + 1, a, b =>
    a == b || edges.any fun e => e.1 == a && reachesWithin edges fuel e.2 b

/-- Model of `nx.descendants(graph, category)` (Dashboard.py line 228): all
nodes reachable from the source, the source itself excluded. -/
def nx_descendants (g : TaxGraph) (source : Nat) : List Nat :=
  ((g.nodes.map fun nd => nd.id).filter fun v =>
    v ≠ source && reachesWithin g.edges g.edges.length source v)

/-- Model of `graph.subgraph(nodes)` (Dashboard.py line 229): keep the named
nodes and the edges between them. -/
def TaxGraph.subgraph (g : TaxGraph) (ids : List Nat) : TaxGraph :=
  ⟨g.nodes.filter fun nd => nd.id ∈ ids,
   g.edges.filter fun e => e.1 ∈ ids ∧ e.2 ∈ ids⟩

/-- Model of `get_taxonomy_vocabularies` (Dashboard.py lines 214-232):
collect the labels of vocabulary-typed nodes — of the whole graph when no
category is given, of the descendants subgraph when the category is a node
of the graph, of nothing otherwise — and sort them with
`key=str.casefold`. -/
def get_taxonomy_vocabularies (graph : TaxGraph) (category : Option Nat) : List String :=
  let vocabularies :=
    match category with
    | none => (graph.nodes.filter fun nd => nd.nodeType = "vocabulary").map fun nd => nd.label
    | some c =>
      if graph.hasNode c then
        let sub := graph.subgraph (nx_descendants graph c)
        (sub.nodes.filter fun nd => nd.nodeType = "vocabulary").map fun nd => nd.label
      else []
  List.insertionSort caseLe vocabularies

/-- All vocabulary terms of a tidied taxonomy, in traversal order (used to
state properties of `tidy_taxonomies`). -/
def collectVocabTerms : List TidyEntry → List TaxTerm
  | [] => []
  | .mk _ vocabulary subcategories :: rest =>
    (match vocabulary with
     | some ts => ts
     | none => []) ++
    (match subcategories with
     | some l => collectVocabTerms l
     | none => []) ++ collectVocabTerms rest

/-- All uuids assigned by `tidy_taxonomies` — of categories and of
vocabulary terms — in assignment order. -/
def collectUuids : List TidyEntry → List Nat
  | [] => []
  | .mk category vocabulary subcategories :: rest =>
    (match category with
     | some t => [t.uuid]
     | none => []) ++
    (match vocabulary with
     | some ts => ts.map fun t => t.uuid
     | none => []) ++
    (match subcategories with
     | some l => collectUuids l
     | none => []) ++ collectUuids rest

/-- Key-presence condition under which the graph builder cannot hit its
`KeyError`: every entry, recursively, that has a non-empty `vocabulary`
list or a `subcategories` key also has a `category` key. -/
def entriesCategoryOk : List TidyEntry → Bool
  | [] => true
  | .mk category vocabulary subcategories :: rest =>
    (match vocabulary with
     | some (_ :: _) => category.isSome
     | _ => true) &&
    (match subcategories with
     | some l => category.isSome && entriesCategoryOk l
     | none => true) && entriesCategoryOk rest

/-! ## Tabular loader (Dashboard.py lines 43-71) -/

/-- The shapes the `filepath` argument of `load_dataframe` can take
(docstring at Dashboard.py line 47): a single path, a list of paths, a
dictionary keyed by subset label, or anything else (which falls through to
the final bare `return`). -/
inductive FilepathArg where
  | str (path : String)
  | list (paths : List String)
  | dict (entries : List (String × String))
  | other

/-- What a `load_dataframe` call evaluates to: a plain dataframe, a
dataframe keyed by the `subset` column, or Python `None` from the final
bare `return`. Row contents are abstract (`α`), read by the supplied
`read_csv`. -/
inductive LoadedData (α : Type) where
  | frame (rows : List α)
  | keyedFrame (rows : List (String × α))
  | pyNone
deriving DecidableEq

/-- Model of `load_dataframe` (Dashboard.py lines 43-71) over an abstract
`read_csv`. In the list branch (lines 56-58) the comprehension body is
`pd.read_csv(file, ...)` but the iteration variable is `path`: the name
`file` is not defined anywhere in scope, so the first iteration raises
`NameError`; on an empty list the comprehension finishes and
`pd.concat([])` raises `ValueError` instead. -/
def load_dataframe {α : Type} (read_csv : String → List α) :
    FilepathArg → Except PyErr (LoadedData α)
  | .str path => .ok (.frame (read_csv path))
  | .list paths =>
    match paths with
    | [] => .error .valueError
    | _ :: _ => .error .nameError
  | .dict entries =>
    match entries with
    | [] => .error .valueError
    | _ :: _ =>
      .ok (.keyedFrame ((entries.map fun kv => (read_csv kv.2).map fun row => (kv.1, row)).flatten))
  | .other => .ok .pyNone

/-! ## Date-range validation in the page scripts
(Dashboard.py lines 575-584, About_the_data.py lines 117-134) -/

/-- What a Streamlit page script emits, in order: titles and markdown text,
an `st.error` box, or a chart widget. `st.stop()` ends the script, so
nothing is emitted after it. -/
inductive DisplayItem where
  | pageTitle (t : String)
  | text (t : String)
  | errorBox (t : String)
  | chart (name : String)
deriving DecidableEq

/-- Model of the main Dashboard page body from the title onwards
(Dashboard.py lines 575-584 and the chart sections after them): the page
title and the selected-range markdown are emitted, then the start/end
comparison runs; when the start is later than the end, `st.error` is shown
and `st.stop()` aborts the script, so the chart sections (abstracted as
`sections`, Dashboard.py lines 586-1165) are never reached. The date
bounds are days in linear order. -/
def dashboard_page (data_range_start data_range_end : Int)
    (sections : List DisplayItem) : List DisplayItem :=
  [.pageTitle "Dashboard: Tweets Explorer", .text "Selected tweets and date range"] ++
  (if data_range_start > data_range_end then
    [.errorBox "Date range selection error: The end date must be later than the start date."]
  else sections)

/-- Model of the About-the-data page body from the title onwards
(About_the_data.py lines 117-134 and the metric/chart sections after
them), with the same start/end check and `st.error`/`st.stop`
behaviour. -/
def about_the_data_page (data_range_start data_range_end : Int)
    (sections : List DisplayItem) : List DisplayItem :=
  [.pageTitle "About the data", .text "corpus description",
   .text "Summary", .text "Selected date range"] ++
  (if data_range_start > data_range_end then
    [.errorBox "Date range selection error: The end date must be later than the start date."]
  else sections)

/-! ## Lemmas about the collocation pipeline -/

theorem addNode_edges (g : CollocGraph) (v : String) : (g.addNode v).edges = g.edges := by
  unfold CollocGraph.addNode
  split <;> rfl

theorem foldl_addNode_edges : ∀ (ws : List String) (g : CollocGraph),
    (ws.foldl (fun g w => g.addNode w) g).edges = g.edges
  | [], _ => rfl
  | w :: ws, g => by
    rw [List.foldl_cons, foldl_addNode_edges ws, addNode_edges]

theorem mem_addNode (g : CollocGraph) (u v : String) :
    v ∈ (g.addNode u).nodes ↔ v ∈ g.nodes ∨ v = u := by
  unfold CollocGraph.addNode
  split
  · next h =>
    constructor
    · exact Or.inl
    · rintro (hm | rfl)
      · exact hm
      · exact h
  · simp [List.mem_append]

theorem nodup_addNode (g : CollocGraph) (u : String) (h : g.nodes.Nodup) :
    (g.addNode u).nodes.Nodup := by
  unfold CollocGraph.addNode
  split
  · exact h
  · next hu => simp [List.nodup_append, h, hu]

theorem foldl_addNode_mem : ∀ (ws : List String) (g : CollocGraph) (v : String),
    v ∈ (ws.foldl (fun g w => g.addNode w) g).nodes ↔ v ∈ g.nodes ∨ v ∈ ws
  | [], g, v => by simp
  | w :: ws, g, v => by
    rw [List.foldl_cons, foldl_addNode_mem ws, mem_addNode]
    simp only [List.mem_cons]
    tauto

theorem foldl_addNode_nodup : ∀ (ws : List String) (g : CollocGraph),
    g.nodes.Nodup → (ws.foldl (fun g w => g.addNode w) g).nodes.Nodup
  | [], _, h => h
  | w :: ws, g, h => by
    rw [List.foldl_cons]
    exact foldl_addNode_nodup ws _ (nodup_addNode g w h)

theorem countP_groupbyHeadAux (top : Nat) (w : String) :
    ∀ (l : List PairRow) (seen : List String),
      ((groupbyHeadAux top seen l).countP fun r => r.x == w) ≤ top - seen.count w
  | [], seen => by simp [groupbyHeadAux]
  | r :: rest, seen => by
    unfold groupbyHeadAux
    by_cases hc : seen.count r.x < top
    · rw [if_pos hc]
      by_cases hx : r.x = w
      · subst hx
        rw [List.countP_cons_of_pos _ _ (by simp)]
        have h2 := countP_groupbyHeadAux top r.x rest (r.x :: seen)
        rw [List.count_cons_self] at h2
        omega
      · rw [List.countP_cons_of_neg _ _ (by simp [hx])]
        have h2 := countP_groupbyHeadAux top w rest (r.x :: seen)
        rw [List.count_cons_of_ne (by exact fun h => hx h.symm)] at h2
        exact h2
    · rw [if_neg hc]
      have h2 := countP_groupbyHeadAux top w rest (r.x :: seen)
      by_cases hx : r.x = w
      · subst hx
        rw [List.count_cons_self] at h2
        omega
      · rw [List.count_cons_of_ne (by exact fun h => hx h.symm)] at h2
        exact h2

theorem countP_groupbyHead (top : Nat) (w : String) (l : List PairRow) :
    ((groupbyHead top l).countP fun r => r.x == w) ≤ top := by
  have h := countP_groupbyHeadAux top w l []
  simpa using Nat.le_trans h (Nat.sub_le top _)

theorem addEdge_countP_src (g : CollocGraph) (u v : String) (wt : ℚ) (w : String) :
    ((g.addEdge u v wt).edges.countP fun e => e.1 == w) ≤
      (g.edges.countP fun e => e.1 == w) + (if u = w then 1 else 0) := by
  unfold CollocGraph.addEdge
  simp only [addNode_edges]
  split
  · rw [List.countP_map]
    rw [List.countP_congr (q := fun e => e.1 == w) ?_]
    · omega
    · intro e _
      simp only [Function.comp_apply]
      split <;> exact Iff.rfl
  · rw [List.countP_append]
    by_cases hu : u = w
    · subst hu
      simp
    · simp [hu]

theorem foldl_addEdge_countP_src (type : CollocType) (w : String) :
    ∀ (rows : List PairRow) (g : CollocGraph),
      (((rows.foldl (fun g r => g.addEdge r.x r.y (r.metric type)) g).edges.countP
          fun e => e.1 == w)) ≤
        (g.edges.countP fun e => e.1 == w) + (rows.countP fun r => r.x == w)
  | [], g => by simp
  | r :: rest, g => by
    rw [List.foldl_cons]
    refine Nat.le_trans (foldl_addEdge_countP_src type w rest _) ?_
    have h1 := addEdge_countP_src g r.x r.y (r.metric type) w
    by_cases hx : r.x = w
    · rw [List.countP_cons_of_pos _ _ (by simp [hx])]
      rw [if_pos hx] at h1
      omega
    · rw [List.countP_cons_of_neg _ _ (by simp [hx])]
      rw [if_neg hx] at h1
      omega

theorem from_pandas_edgelist_countP_src (rows : List PairRow) (type : CollocType) (w : String) :
    ((from_pandas_edgelist rows type).edges.countP fun e => e.1 == w) ≤
      (rows.countP fun r => r.x == w) := by
  have h := foldl_addEdge_countP_src type w rows { nodes := [], edges := [] }
  simpa [from_pandas_edgelist] using h

/-- C1: for every bigram table, focus-word set, metric and `top_k`, the graph
returned by `get_nx_collocation_graph` contains at most `top_k` edges whose
stored source is any single word (the `groupby('x').head(top)` truncation
bounds the per-focus-word out-degree), while the total degree of a shared
neighbor node is not bounded by `top_k`: with `top_k = 1`, two focus words
that share the neighbor `"shared"` give it degree `2`. -/
theorem collocation_out_degree_topk_bound :
    (∀ (bigrams : List BigramRow) (words : List String) (type : CollocType) (top : Nat)
        (w : String),
        ((get_nx_collocation_graph bigrams words type top).edges.countP
          fun e => e.1 == w) ≤ top) ∧
    1 < (get_nx_collocation_graph
          [⟨"2020-04-13", "alpha", "shared", 1, 1⟩, ⟨"2020-04-13", "beta", "shared", 1, 1⟩]
          ["alpha", "beta"] CollocType.f_xy 1).degree "shared" := by
  constructor
  · intro bigrams words type top w
    simp only [get_nx_collocation_graph]
    split
    · rw [foldl_addNode_edges]
      simp
    · exact Nat.le_trans (from_pandas_edgelist_countP_src _ type w) (countP_groupbyHead top w _)
  · decide

/-- C2: when no row of the deduplicated bigram table matches any focus word
in either column, the returned graph consists of exactly the focus words as
isolated nodes — node set equal to the focus-word set, no duplicates, no
edges. -/
theorem collocation_no_match_isolated_nodes (bigrams : List BigramRow)
    (words : List String) (type : CollocType) (top : Nat)
    (_hw : words ≠ [])
    (hno : ∀ r ∈ drop_duplicates (bigrams.map PairRow.ofBigram),
      r.x ∉ words ∧ r.y ∉ words) :
    (∀ v, v ∈ (get_nx_collocation_graph bigrams words type top).nodes ↔ v ∈ words) ∧
    (get_nx_collocation_graph bigrams words type top).nodes.Nodup ∧
    (get_nx_collocation_graph bigrams words type top).edges = [] := by
  have hx : ((drop_duplicates (bigrams.map PairRow.ofBigram)).filter
      fun r => decide (r.x ∈ words)) = [] := by
    rw [List.filter_eq_nil_iff]
    intro r hr
    simpa using (hno r hr).1
  have hy : ((drop_duplicates (bigrams.map PairRow.ofBigram)).filter
      fun r => decide (r.y ∈ words)) = [] := by
    rw [List.filter_eq_nil_iff]
    intro r hr
    simpa using (hno r hr).2
  have hg : get_nx_collocation_graph bigrams words type top =
      words.foldl (fun g w => g.addNode w) { nodes := [], edges := [] } := by
    simp only [get_nx_collocation_graph, hx, hy, List.map_nil, List.nil_append,
      List.insertionSort, groupbyHead, groupbyHeadAux, List.isEmpty_nil, if_true]
  rw [hg]
  refine ⟨fun v => ?_, foldl_addNode_nodup words _ (by simp), foldl_addNode_edges words _⟩
  rw [foldl_addNode_mem]
  simp

/-- C2 witness: the focus word `zzz_not_present` against an empty bigram
table yields the graph with that single isolated node and no edges. -/
theorem collocation_no_match_isolated_nodes_witness :
    (["zzz_not_present"] : List String) ≠ [] ∧
    ("zzz_not_present" ∈
        (get_nx_collocation_graph [] ["zzz_not_present"] CollocType.f_xy 7).nodes ∧
      (get_nx_collocation_graph [] ["zzz_not_present"] CollocType.f_xy 7).nodes.Nodup ∧
      (get_nx_collocation_graph [] ["zzz_not_present"] CollocType.f_xy 7).edges = []) := by
  have h := collocation_no_match_isolated_nodes [] ["zzz_not_present"] CollocType.f_xy 7
    (by decide) (by intro r hr; simp [drop_duplicates, dropDuplicatesAux] at hr)
  exact ⟨by decide, (h.1 "zzz_not_present").mpr (by decide), h.2.1, h.2.2⟩

/-- C3: on the two-row table `(truth, hoax, f_xy 5, pmi 1.2)` and
`(hoax, lies, f_xy 9, pmi 0.4)` with focus word `truth`, metric `f_xy`
and `top_k = 1`, the builder returns the graph with nodes
`truth, hoax` and the single edge `truth — hoax` of weight `5`. -/
theorem collocation_truth_hoax_scenario :
    get_nx_collocation_graph
        [⟨"2020-04-13", "truth", "hoax", 5, 1.2⟩, ⟨"2020-04-13", "hoax", "lies", 9, 0.4⟩]
        ["truth"] CollocType.f_xy 1 =
      { nodes := ["truth", "hoax"], edges := [("truth", "hoax", 5)] } := by
  rw [show (1.2 : ℚ) = mkRat 12 10 by
    show Rat.ofScientific 12 true 1 = mkRat 12 10
    rw [Rat.ofScientific_true_def]; decide]
  rw [show (0.4 : ℚ) = mkRat 4 10 by
    show Rat.ofScientific 4 true 1 = mkRat 4 10
    rw [Rat.ofScientific_true_def]; decide]
  decide

/-! ## Lemmas for the no-parallel-edges invariant -/

theorem addEdge_pairwise (g : CollocGraph) (u v : String) (wt : ℚ)
    (h : g.edges.Pairwise fun e f => ¬ sameUnorderedPair e f) :
    (g.addEdge u v wt).edges.Pairwise fun e f => ¬ sameUnorderedPair e f := by
  unfold CollocGraph.addEdge
  simp only [addNode_edges]
  split
  · refine List.Pairwise.map _ ?_ h
    intro a b hab hsame
    apply hab
    unfold sameUnorderedPair at hsame ⊢
    have ha1 : (if edgeMatches a u v then (a.1, a.2.1, wt) else a).1 = a.1 := by
      split <;> rfl
    have ha2 : (if edgeMatches a u v then (a.1, a.2.1, wt) else a).2.1 = a.2.1 := by
      split <;> rfl
    have hb1 : (if edgeMatches b u v then (b.1, b.2.1, wt) else b).1 = b.1 := by
      split <;> rfl
    have hb2 : (if edgeMatches b u v then (b.1, b.2.1, wt) else b).2.1 = b.2.1 := by
      split <;> rfl
    rw [ha1, ha2, hb1, hb2] at hsame
    exact hsame
  · next hany =>
    rw [List.pairwise_append]
    refine ⟨h, List.pairwise_singleton _ _, ?_⟩
    intro a ha e he
    rw [List.mem_singleton] at he
    subst he
    have hfalse : edgeMatches a u v = false := by
      rcases Bool.eq_false_or_eq_true (edgeMatches a u v) with ht | hf
      · exact absurd (List.any_eq_true.mpr ⟨a, ha, ht⟩) hany
      · exact hf
    intro hsame
    unfold sameUnorderedPair at hsame
    simp only [edgeMatches, Bool.or_eq_false_iff, Bool.and_eq_false_iff,
      beq_eq_false_iff_ne, ne_eq] at hfalse
    rcases hsame with ⟨h1, h2⟩ | ⟨h1, h2⟩
    · rcases hfalse.1 with hbad | hbad <;> exact hbad (by simpa using ‹_›)
    · rcases hfalse.2 with hbad | hbad <;> exact hbad (by simpa using ‹_›)

theorem foldl_addEdge_pairwise (type : CollocType) :
    ∀ (rows : List PairRow) (g : CollocGraph),
      g.edges.Pairwise (fun e f => ¬ sameUnorderedPair e f) →
      ((rows.foldl (fun g r => g.addEdge r.x r.y (r.metric type)) g).edges.Pairwise
        fun e f => ¬ sameUnorderedPair e f)
  | [], _, h => h
  | r :: rest, g, h => by
    rw [List.foldl_cons]
    exact foldl_addEdge_pairwise type rest _ (addEdge_pairwise g r.x r.y (r.metric type) h)

/-- C10: the graph built by `get_nx_collocation_graph` never holds two edges
over the same unordered word pair — rows repeating a pair (in either
orientation, or once per focus word of the pair) merge into a single
edge. -/
theorem collocation_graph_no_parallel_edges (bigrams : List BigramRow)
    (words : List String) (type : CollocType) (top : Nat) :
    (get_nx_collocation_graph bigrams words type top).edges.Pairwise
      fun e f => ¬ sameUnorderedPair e f := by
  simp only [get_nx_collocation_graph]
  split
  · rw [foldl_addNode_edges]
    exact List.Pairwise.nil
  · exact foldl_addEdge_pairwise type _ _ List.Pairwise.nil

/-! ## Taxonomy vocabulary queries -/

/-- C6: with no category filter, `get_taxonomy_vocabularies` returns the
labels of all vocabulary-typed nodes, sorted case-insensitively; with a
category that is a node of the graph, it returns exactly the labels of the
vocabulary-typed descendants of that category, sorted case-insensitively. -/
theorem get_taxonomy_vocabularies_spec :
    (∀ g : TaxGraph,
      (get_taxonomy_vocabularies g none).Sorted caseLe ∧
      ∀ w, w ∈ get_taxonomy_vocabularies g none ↔
        ∃ nd, nd ∈ g.nodes ∧ nd.nodeType = "vocabulary" ∧ nd.label = w) ∧
    (∀ (g : TaxGraph) (c : Nat), g.hasNode c = true →
      (get_taxonomy_vocabularies g (some c)).Sorted caseLe ∧
      ∀ w, w ∈ get_taxonomy_vocabularies g (some c) ↔
        ∃ nd, nd ∈ g.nodes ∧ nd.nodeType = "vocabulary" ∧
          nd.id ∈ nx_descendants g c ∧ nd.label = w) := by
  constructor
  · intro g
    constructor
    · exact List.sorted_insertionSort caseLe _
    · intro w
      unfold get_taxonomy_vocabularies
      rw [List.mem_insertionSort]
      simp only [List.mem_map, List.mem_filter, decide_eq_true_eq]
      constructor
      · rintro ⟨nd, ⟨hmem, htype⟩, rfl⟩
        exact ⟨nd, hmem, htype, rfl⟩
      · rintro ⟨nd, hmem, htype, rfl⟩
        exact ⟨nd, ⟨hmem, htype⟩, rfl⟩
  · intro g c hc
    constructor
    · exact List.sorted_insertionSort caseLe _
    · intro w
      unfold get_taxonomy_vocabularies TaxGraph.subgraph
      dsimp only
      rw [List.mem_insertionSort]
      rw [if_pos hc]
      simp only [List.mem_map, List.mem_filter, decide_eq_true_eq]
      constructor
      · rintro ⟨nd, ⟨⟨hmem, hdesc⟩, htype⟩, rfl⟩
        exact ⟨nd, hmem, htype, hdesc, rfl⟩
      · rintro ⟨nd, hmem, htype, hdesc, rfl⟩
        exact ⟨nd, ⟨⟨hmem, hdesc⟩, htype⟩, rfl⟩

/-- C6 witness: on a concrete two-category graph, the category `0` is a node
and the theorem yields the sortedness of its descendant vocabulary list and
the membership characterization of the label `pfizer`. -/
theorem get_taxonomy_vocabularies_spec_witness :
    TaxGraph.hasNode
        ⟨[⟨0, "vaccines", "category"⟩, ⟨1, "pfizer", "vocabulary"⟩,
          ⟨2, "cures", "category"⟩, ⟨3, "garlic", "vocabulary"⟩], [(0, 1), (2, 3)]⟩ 0 = true ∧
    (get_taxonomy_vocabularies
        ⟨[⟨0, "vaccines", "category"⟩, ⟨1, "pfizer", "vocabulary"⟩,
          ⟨2, "cures", "category"⟩, ⟨3, "garlic", "vocabulary"⟩], [(0, 1), (2, 3)]⟩
        (some 0)).Sorted caseLe :=
  ⟨by decide,
   (get_taxonomy_vocabularies_spec.2
     ⟨[⟨0, "vaccines", "category"⟩, ⟨1, "pfizer", "vocabulary"⟩,
       ⟨2, "cures", "category"⟩, ⟨3, "garlic", "vocabulary"⟩], [(0, 1), (2, 3)]⟩
     0 (by decide)).1⟩

/-- C7: a category identifier that is not a node of the graph makes
`get_taxonomy_vocabularies` return the empty list, raising nothing. -/
theorem get_taxonomy_vocabularies_unknown_category (g : TaxGraph) (c : Nat)
    (h : g.hasNode c = false) :
    get_taxonomy_vocabularies g (some c) = [] := by
  unfold get_taxonomy_vocabularies
  dsimp only
  rw [if_neg (by rw [h]; exact Bool.false_ne_true)]
  rfl

/-- C7 witness: querying a category id absent from a concrete one-node graph
returns the empty list. -/
theorem get_taxonomy_vocabularies_unknown_category_witness :
    TaxGraph.hasNode ⟨[⟨1, "pfizer", "vocabulary"⟩], []⟩ 99 = false ∧
    get_taxonomy_vocabularies ⟨[⟨1, "pfizer", "vocabulary"⟩], []⟩ (some 99) = [] :=
  ⟨by decide,
   get_taxonomy_vocabularies_unknown_category ⟨[⟨1, "pfizer", "vocabulary"⟩], []⟩ 99 (by decide)⟩

/-! ## Missing taxonomy keys -/

/-- C4 counterexample: the taxonomy value with a `vocabulary` key but no
`category` key is tidied without error, but `get_nx_taxonomies_graph`
raises `KeyError` on it (Dashboard.py line 208 reads
`value['category']['uuid']` inside the vocabulary branch) instead of
skipping the absent key. -/
theorem taxonomies_graph_missing_category_raises :
    (tidy_taxonomies [TaxEntry.mk none (some ["misinfo"]) none] 0).1 =
      [TidyEntry.mk none (some [⟨"misinfo", 0⟩]) none] ∧
    get_nx_taxonomies_graph [TidyEntry.mk none (some [⟨"misinfo", 0⟩]) none]
        TaxGraph.empty none = .error PyErr.keyError := by
  constructor
  · simp only [tidy_taxonomies]
    rw [show (tidyVocabulary ["misinfo"] 0).1 = [⟨"misinfo", 0⟩] from by decide]
  · rw [get_nx_taxonomies_graph.eq_def]
    rfl

theorem addVocabularyNodes_some_ok (cat : TaxTerm) :
    ∀ (ts : List TaxTerm) (g : TaxGraph), ∃ g', addVocabularyNodes g (some cat) ts = .ok g'
  | [], g => ⟨g, rfl⟩
  | t :: ts, g => by
    obtain ⟨g', hg'⟩ := addVocabularyNodes_some_ok cat ts
      ((g.addNode t.uuid t.name "vocabulary").addEdge cat.uuid t.uuid)
    exact ⟨g', by rw [addVocabularyNodes, hg']⟩

theorem taxonomies_graph_ok_aux (n : Nat) :
    ∀ (data : List TidyEntry) (g : TaxGraph) (parent : Option Nat),
      sizeOf data ≤ n → entriesCategoryOk data = true →
      ∃ g', get_nx_taxonomies_graph data g parent = .ok g' := by
  induction n with
  | zero =>
    intro data g parent hsz _
    cases data with
    | nil => exact ⟨g, by rw [get_nx_taxonomies_graph.eq_def]⟩
    | cons e rest => simp at hsz
  | succ n ih =>
    intro data g parent hsz h
    cases data with
    | nil => exact ⟨g, by rw [get_nx_taxonomies_graph.eq_def]⟩
    | cons e rest =>
      cases e with
      | mk category vocabulary subcategories =>
        rw [entriesCategoryOk.eq_def] at h
        dsimp only at h
        rw [Bool.and_eq_true, Bool.and_eq_true] at h
        obtain ⟨⟨hvoc, hsub⟩, hrest⟩ := h
        rw [get_nx_taxonomies_graph.eq_def]
        dsimp only
        have hvocOk : ∀ g1 : TaxGraph, ∃ g2,
            (match vocabulary with
             | some ts => addVocabularyNodes g1 category ts
             | none => .ok g1) = .ok g2 := by
          intro g1
          match vocabulary, hvoc with
          | none, _ => exact ⟨g1, rfl⟩
          | some [], _ => exact ⟨g1, rfl⟩
          | some (t :: ts), hvoc =>
            match category, hvoc with
            | some cat, _ => exact addVocabularyNodes_some_ok cat (t :: ts) _
            | none, hvoc => exact absurd hvoc (by simp)
        obtain ⟨g2, hg2⟩ := hvocOk _
        rw [hg2]
        dsimp only [Except.bind]
        have hsubOk : ∃ g3,
            (match subcategories with
             | some l =>
               match category with
               | some cat => get_nx_taxonomies_graph l g2 (some cat.uuid)
               | none => .error PyErr.keyError
             | none => .ok g2) = .ok g3 := by
          cases subcategories with
          | none => exact ⟨g2, rfl⟩
          | some l =>
            rw [Bool.and_eq_true] at hsub
            obtain ⟨hcat, hok⟩ := hsub
            match category, hcat with
            | some cat, _ =>
              exact ih l g2 (some cat.uuid) (by simp at hsz ⊢; omega) hok
            | none, hbad => exact absurd hbad (by simp)
        obtain ⟨g3, hg3⟩ := hsubOk
        rw [hg3]
        dsimp only [Except.bind]
        exact ih rest g3 parent (by simp at hsz ⊢; omega) hrest

/-- C4 amended, success side: when every entry that has a non-empty
vocabulary list or a subcategories key also has a category key, the graph
builder completes without raising; `tidy_taxonomies` itself tolerates any
combination of absent keys (it is a total function in this embedding). -/
theorem taxonomies_graph_ok_of_category_present (data : List TidyEntry)
    (g : TaxGraph) (parent : Option Nat) (h : entriesCategoryOk data = true) :
    ∃ g', get_nx_taxonomies_graph data g parent = .ok g' :=
  taxonomies_graph_ok_aux (sizeOf data) data g parent le_rfl h

/-- C4 amended witness: a concrete mixed taxonomy — an entry with only a
category, one with category and vocabulary, one with neither vocabulary
nor subcategories — satisfies the key condition and builds a graph. -/
theorem taxonomies_graph_ok_of_category_present_witness :
    entriesCategoryOk
        [TidyEntry.mk (some ⟨"origins", 0⟩) none none,
         TidyEntry.mk (some ⟨"cures", 1⟩) (some [⟨"garlic", 2⟩]) none,
         TidyEntry.mk none none none,
         TidyEntry.mk none (some []) none] = true ∧
    ∃ g', get_nx_taxonomies_graph
        [TidyEntry.mk (some ⟨"origins", 0⟩) none none,
         TidyEntry.mk (some ⟨"cures", 1⟩) (some [⟨"garlic", 2⟩]) none,
         TidyEntry.mk none none none,
         TidyEntry.mk none (some []) none] TaxGraph.empty none = .ok g' :=
  ⟨by simp [entriesCategoryOk.eq_def],
   taxonomies_graph_ok_of_category_present
     [TidyEntry.mk (some ⟨"origins", 0⟩) none none,
      TidyEntry.mk (some ⟨"cures", 1⟩) (some [⟨"garlic", 2⟩]) none,
      TidyEntry.mk none none none,
      TidyEntry.mk none (some []) none] TaxGraph.empty none
     (by simp [entriesCategoryOk.eq_def])⟩

/-! ## Date-range validation and the loader -/

/-- C5: a date range whose start is strictly later than its end makes both
page scripts emit the user-visible error box and stop; no chart item is
displayed in that render cycle, whatever chart sections the rest of the
script would have produced. -/
theorem date_range_error_short_circuits (s e : Int)
    (sections sections2 : List DisplayItem) (h : s > e) :
    (DisplayItem.errorBox
        "Date range selection error: The end date must be later than the start date." ∈
          dashboard_page s e sections ∧
      ∀ name, DisplayItem.chart name ∉ dashboard_page s e sections) ∧
    (DisplayItem.errorBox
        "Date range selection error: The end date must be later than the start date." ∈
          about_the_data_page s e sections2 ∧
      ∀ name, DisplayItem.chart name ∉ about_the_data_page s e sections2) := by
  unfold dashboard_page about_the_data_page
  rw [if_pos h, if_pos h]
  refine ⟨⟨by simp, ?_⟩, by simp, ?_⟩ <;> intro name <;> simp

/-- C5 witness: with start day 5 and end day 3 the dashboard page shows the
error box and drops its chart section. -/
theorem date_range_error_short_circuits_witness :
    (5 : Int) > 3 ∧
    DisplayItem.errorBox
        "Date range selection error: The end date must be later than the start date." ∈
      dashboard_page 5 3 [DisplayItem.chart "word frequencies"] ∧
    DisplayItem.chart "word frequencies" ∉
      dashboard_page 5 3 [DisplayItem.chart "word frequencies"] :=
  ⟨by decide,
   (date_range_error_short_circuits 5 3 [DisplayItem.chart "word frequencies"] []
     (by decide)).1.1,
   (date_range_error_short_circuits 5 3 [DisplayItem.chart "word frequencies"] []
     (by decide)).1.2 "word frequencies"⟩

/-- C9: calling the Dashboard `load_dataframe` with a non-empty list of
paths always raises `NameError` — the list-comprehension body reads the
undefined name `file` instead of the iteration variable `path` — so the
list input shape never returns a concatenated table. -/
theorem load_dataframe_list_always_raises {α : Type} (read_csv : String → List α)
    (paths : List String) (h : paths ≠ []) :
    load_dataframe read_csv (.list paths) = .error .nameError := by
  cases paths with
  | nil => exact absurd rfl h
  | cons p ps => rfl

/-- C9 witness: a one-element path list raises `NameError` whatever the file
contents would have been. -/
theorem load_dataframe_list_always_raises_witness :
    (["data/ALL/unigrams.csv.gz"] : List String) ≠ [] ∧
    load_dataframe (fun _ => ([] : List Nat)) (.list ["data/ALL/unigrams.csv.gz"]) =
      .error .nameError :=
  ⟨by decide,
   load_dataframe_list_always_raises (fun _ => ([] : List Nat))
     ["data/ALL/unigrams.csv.gz"] (by decide)⟩

/-! ## Character-level facts for the normalization claim -/

theorem toLower_toNat_of_upper (c : Char) (h : 65 ≤ c.toNat ∧ c.toNat ≤ 90) :
    (Char.toLower c).toNat = c.toNat + 32 := by
  unfold Char.toLower
  rw [if_pos (by omega)]
  have hv : Char.isValidCharNat (c.toNat + 32) := Or.inl (by omega)
  rw [Char.ofNat, dif_pos hv]
  simp only [Char.ofNatAux, Char.toNat, UInt32.ofNat', UInt32.toNat, BitVec.toNat_ofNatLt]

theorem toLower_of_not_upper (c : Char) (h : ¬(65 ≤ c.toNat ∧ c.toNat ≤ 90)) :
    Char.toLower c = c := by
  unfold Char.toLower
  rw [if_neg (by omega)]

theorem toLower_not_upper (c : Char) :
    ¬(65 ≤ (Char.toLower c).toNat ∧ (Char.toLower c).toNat ≤ 90) := by
  by_cases h : 65 ≤ c.toNat ∧ c.toNat ≤ 90
  · rw [toLower_toNat_of_upper c h]
    omega
  · rw [toLower_of_not_upper c h]
    omega

theorem isWhitespace_toNat (c : Char) (h : c.isWhitespace = true) :
    c.toNat = 32 ∨ c.toNat = 9 ∨ c.toNat = 13 ∨ c.toNat = 10 := by
  unfold Char.isWhitespace at h
  simp only [Bool.or_eq_true, decide_eq_true_eq] at h
  rcases h with ((rfl | rfl) | rfl) | rfl <;> decide

theorem isWhitespace_of_toLower (c : Char) (h : (Char.toLower c).isWhitespace = true) :
    c.isWhitespace = true := by
  by_cases hu : 65 ≤ c.toNat ∧ c.toNat ≤ 90
  · have := isWhitespace_toNat _ h
    rw [toLower_toNat_of_upper c hu] at this
    omega
  · rwa [toLower_of_not_upper c hu] at h

/-! ## Split and token lemmas -/

theorem splitWsAux_no_ws : ∀ (cs cur : List Char),
    (∀ c ∈ cur, c.isWhitespace = false) →
    ∀ w ∈ splitWsAux cur cs, ∀ c ∈ w, c.isWhitespace = false
  | [], cur, hcur, w, hw, c, hc => by
    unfold splitWsAux at hw
    split at hw
    · exact absurd hw (List.not_mem_nil w)
    · rw [List.mem_singleton] at hw
      subst hw
      exact hcur c (List.mem_reverse.mp hc)
  | ch :: rest, cur, hcur, w, hw, c, hc => by
    unfold splitWsAux at hw
    split at hw
    · split at hw
      · exact splitWsAux_no_ws rest [] (by simp) w hw c hc
      · rw [List.mem_cons] at hw
        rcases hw with rfl | hw
        · exact hcur c (List.mem_reverse.mp hc)
        · exact splitWsAux_no_ws rest [] (by simp) w hw c hc
    · next hch =>
      refine splitWsAux_no_ws rest (ch :: cur) ?_ w hw c hc
      intro c1 hc1
      rw [List.mem_cons] at hc1
      rcases hc1 with rfl | hc1
      · exact Bool.not_eq_true _ ▸ hch
      · exact hcur c1 hc1

theorem pySplit_no_ws (s : String) :
    ∀ w ∈ pySplit s, ∀ c ∈ w.data, c.isWhitespace = false := by
  intro w hw c hc
  unfold pySplit at hw
  rw [List.mem_map] at hw
  obtain ⟨cs, hcs, rfl⟩ := hw
  exact splitWsAux_no_ws s.data [] (by simp) cs hcs c hc

theorem tidy_token_chars (w : String) (hw : ∀ c ∈ w.data, c.isWhitespace = false) :
    ∀ c ∈ (stripAsterisks (pyLower w)).data,
      ¬(65 ≤ c.toNat ∧ c.toNat ≤ 90) ∧ c ≠ '*' ∧ c.isWhitespace = false := by
  intro c hc
  unfold stripAsterisks pyLower at hc
  rw [List.mem_filter] at hc
  obtain ⟨hmem, hstar⟩ := hc
  rw [List.mem_map] at hmem
  obtain ⟨c0, hc0, rfl⟩ := hmem
  refine ⟨toLower_not_upper c0, by simpa using hstar, ?_⟩
  rcases Bool.eq_false_or_eq_true (Char.toLower c0).isWhitespace with ht | hf
  · exact absurd (isWhitespace_of_toLower c0 ht) (by rw [hw c0 hc0]; exact Bool.false_ne_true)
  · exact hf

theorem tidyTokens_names : ∀ (ws : List String) (c : Nat),
    (∀ w ∈ ws, ∀ ch ∈ w.data, ch.isWhitespace = false) →
    ∀ t ∈ (tidyTokens ws c).1,
      (∀ ch ∈ t.name.data,
        ¬(65 ≤ ch.toNat ∧ ch.toNat ≤ 90) ∧ ch ≠ '*' ∧ ch.isWhitespace = false) ∧
      t.name ∉ stopwords
  | [], _, _, t, ht => absurd ht (List.not_mem_nil t)
  | w :: ws, c, h, t, ht => by
    unfold tidyTokens at ht
    dsimp only at ht
    by_cases hsw : stripAsterisks (pyLower w) ∈ stopwords
    · rw [if_pos hsw] at ht
      exact tidyTokens_names ws c (fun w' hw' => h w' (List.mem_cons_of_mem _ hw')) t ht
    · rw [if_neg hsw] at ht
      dsimp only at ht
      rw [List.mem_cons] at ht
      rcases ht with rfl | ht
      · exact ⟨tidy_token_chars w (h w (List.mem_cons_self w ws)), hsw⟩
      · exact tidyTokens_names ws (c + 1)
          (fun w' hw' => h w' (List.mem_cons_of_mem _ hw')) t ht

theorem tidyTokens_uuids : ∀ (ws : List String) (c : Nat),
    c ≤ (tidyTokens ws c).2 ∧
    (∀ t ∈ (tidyTokens ws c).1, c ≤ t.uuid ∧ t.uuid < (tidyTokens ws c).2) ∧
    ((tidyTokens ws c).1.map fun t => t.uuid).Pairwise (· < ·)
  | [], c => by
    refine ⟨le_rfl, ?_, ?_⟩ <;> simp [tidyTokens]
  | w :: ws, c => by
    unfold tidyTokens
    dsimp only
    by_cases hsw : stripAsterisks (pyLower w) ∈ stopwords
    · rw [if_pos hsw]
      exact tidyTokens_uuids ws c
    · rw [if_neg hsw]
      dsimp only
      obtain ⟨h1, h2, h3⟩ := tidyTokens_uuids ws (c + 1)
      refine ⟨by omega, ?_, ?_⟩
      · intro t ht
        rw [List.mem_cons] at ht
        rcases ht with rfl | ht
        · exact ⟨le_rfl, by dsimp only; omega⟩
        · have := h2 t ht
          exact ⟨by omega, this.2⟩
      · rw [List.map_cons]
        refine List.Pairwise.cons ?_ h3
        intro u hu
        rw [List.mem_map] at hu
        obtain ⟨t, ht, rfl⟩ := hu
        have := h2 t ht
        dsimp only
        omega

theorem tidyVocabulary_names : ∀ (ss : List String) (c : Nat),
    ∀ t ∈ (tidyVocabulary ss c).1,
      (∀ ch ∈ t.name.data,
        ¬(65 ≤ ch.toNat ∧ ch.toNat ≤ 90) ∧ ch ≠ '*' ∧ ch.isWhitespace = false) ∧
      t.name ∉ stopwords
  | [], _, t, ht => absurd ht (List.not_mem_nil t)
  | s :: ss, c, t, ht => by
    unfold tidyVocabulary at ht
    dsimp only at ht
    rw [List.mem_append] at ht
    rcases ht with ht | ht
    · exact tidyTokens_names (pySplit s) c (pySplit_no_ws s) t ht
    · exact tidyVocabulary_names ss _ t ht

theorem pairwise_lt_append (xs ys : List Nat) (b : Nat)
    (hx : ∀ u ∈ xs, u < b) (hy : ∀ u ∈ ys, b ≤ u)
    (px : xs.Pairwise (· < ·)) (py : ys.Pairwise (· < ·)) :
    (xs ++ ys).Pairwise (· < ·) := by
  rw [List.pairwise_append]
  exact ⟨px, py, fun x hxm y hym => lt_of_lt_of_le (hx x hxm) (hy y hym)⟩

theorem tidyVocabulary_uuids : ∀ (ss : List String) (c : Nat),
    c ≤ (tidyVocabulary ss c).2 ∧
    (∀ t ∈ (tidyVocabulary ss c).1, c ≤ t.uuid ∧ t.uuid < (tidyVocabulary ss c).2) ∧
    ((tidyVocabulary ss c).1.map fun t => t.uuid).Pairwise (· < ·)
  | [], c => by
    refine ⟨le_rfl, ?_, ?_⟩ <;> simp [tidyVocabulary]
  | s :: ss, c => by
    unfold tidyVocabulary
    dsimp only
    obtain ⟨ha1, ha2, ha3⟩ := tidyTokens_uuids (pySplit s) c
    obtain ⟨hb1, hb2, hb3⟩ := tidyVocabulary_uuids ss (tidyTokens (pySplit s) c).2
    refine ⟨by omega, ?_, ?_⟩
    · intro t ht
      rw [List.mem_append] at ht
      rcases ht with ht | ht
      · have := ha2 t ht
        exact ⟨this.1, by omega⟩
      · have := hb2 t ht
        exact ⟨by omega, this.2⟩
    · rw [List.map_append]
      refine pairwise_lt_append _ _ (tidyTokens (pySplit s) c).2 ?_ ?_ ha3 hb3
      · intro u hu
        rw [List.mem_map] at hu
        obtain ⟨t, ht, rfl⟩ := hu
        exact (ha2 t ht).2
      · intro u hu
        rw [List.mem_map] at hu
        obtain ⟨t, ht, rfl⟩ := hu
        exact (hb2 t ht).1

theorem tidy_names_aux (n : Nat) :
    ∀ (data : List TaxEntry) (c : Nat), sizeOf data ≤ n →
    ∀ t ∈ collectVocabTerms (tidy_taxonomies data c).1,
      (∀ ch ∈ t.name.data,
        ¬(65 ≤ ch.toNat ∧ ch.toNat ≤ 90) ∧ ch ≠ '*' ∧ ch.isWhitespace = false) ∧
      t.name ∉ stopwords := by
  induction n with
  | zero =>
    intro data c hsz
    cases data with
    | nil =>
      intro t ht
      simp [tidy_taxonomies, collectVocabTerms] at ht
    | cons e rest => simp at hsz
  | succ n ih =>
    intro data c hsz
    cases data with
    | nil =>
      intro t ht
      simp [tidy_taxonomies, collectVocabTerms] at ht
    | cons e rest =>
      cases e with
      | mk category vocabulary subcategories =>
        simp only [List.cons.sizeOf_spec, TaxEntry.mk.sizeOf_spec] at hsz
        intro t ht
        rw [tidy_taxonomies.eq_def] at ht
        dsimp only at ht
        rw [collectVocabTerms.eq_def] at ht
        dsimp only at ht
        cases vocabulary with
        | none =>
          cases subcategories with
          | none =>
            simp only [List.mem_append] at ht
            rcases ht with (ht | ht) | ht
            · exact absurd ht (List.not_mem_nil t)
            · exact absurd ht (List.not_mem_nil t)
            · exact ih rest _ (by omega) t ht
          | some l =>
            simp only [List.mem_append] at ht
            rcases ht with (ht | ht) | ht
            · exact absurd ht (List.not_mem_nil t)
            · exact ih l _ (by simp at hsz; omega) t ht
            · exact ih rest _ (by simp at hsz; omega) t ht
        | some phrases =>
          cases subcategories with
          | none =>
            simp only [List.mem_append] at ht
            rcases ht with (ht | ht) | ht
            · exact tidyVocabulary_names phrases _ t ht
            · exact absurd ht (List.not_mem_nil t)
            · exact ih rest _ (by simp at hsz; omega) t ht
          | some l =>
            simp only [List.mem_append] at ht
            rcases ht with (ht | ht) | ht
            · exact tidyVocabulary_names phrases _ t ht
            · exact ih l _ (by simp at hsz; omega) t ht
            · exact ih rest _ (by simp at hsz; omega) t ht

theorem uuid_four_segments (A B C D : List Nat) (c c1 c2 c3 c4 : Nat)
    (h01 : c ≤ c1) (h12 : c1 ≤ c2) (h23 : c2 ≤ c3) (h34 : c3 ≤ c4)
    (hA : ∀ u ∈ A, c ≤ u ∧ u < c1) (hB : ∀ u ∈ B, c1 ≤ u ∧ u < c2)
    (hC : ∀ u ∈ C, c2 ≤ u ∧ u < c3) (hD : ∀ u ∈ D, c3 ≤ u ∧ u < c4)
    (pA : A.Pairwise (· < ·)) (pB : B.Pairwise (· < ·))
    (pC : C.Pairwise (· < ·)) (pD : D.Pairwise (· < ·)) :
    (∀ u ∈ A ++ B ++ C ++ D, c ≤ u ∧ u < c4) ∧
    (A ++ B ++ C ++ D).Pairwise (· < ·) := by
  have hAB : ∀ u ∈ A ++ B, c ≤ u ∧ u < c2 := by
    intro u hu
    rw [List.mem_append] at hu
    rcases hu with hu | hu
    · have := hA u hu; omega
    · have := hB u hu; omega
  have pAB : (A ++ B).Pairwise (· < ·) :=
    pairwise_lt_append A B c1 (fun u hu => (hA u hu).2) (fun u hu => (hB u hu).1) pA pB
  have hABC : ∀ u ∈ A ++ B ++ C, c ≤ u ∧ u < c3 := by
    intro u hu
    rw [List.mem_append] at hu
    rcases hu with hu | hu
    · have := hAB u hu; omega
    · have := hC u hu; omega
  have pABC : (A ++ B ++ C).Pairwise (· < ·) :=
    pairwise_lt_append (A ++ B) C c2 (fun u hu => (hAB u hu).2)
      (fun u hu => (hC u hu).1) pAB pC
  constructor
  · intro u hu
    rw [List.mem_append] at hu
    rcases hu with hu | hu
    · have := hABC u hu; omega
    · have := hD u hu; omega
  · exact pairwise_lt_append (A ++ B ++ C) D c3 (fun u hu => (hABC u hu).2)
      (fun u hu => (hD u hu).1) pABC pD

theorem tidy_uuids_aux (n : Nat) :
    ∀ (data : List TaxEntry) (c : Nat), sizeOf data ≤ n →
    c ≤ (tidy_taxonomies data c).2 ∧
    (∀ u ∈ collectUuids (tidy_taxonomies data c).1,
      c ≤ u ∧ u < (tidy_taxonomies data c).2) ∧
    (collectUuids (tidy_taxonomies data c).1).Pairwise (· < ·) := by
  induction n with
  | zero =>
    intro data c hsz
    cases data with
    | nil =>
      refine ⟨?_, ?_, ?_⟩ <;> simp [tidy_taxonomies, collectUuids]
    | cons e rest => simp at hsz
  | succ n ih =>
    intro data c hsz
    cases data with
    | nil =>
      refine ⟨?_, ?_, ?_⟩ <;> simp [tidy_taxonomies, collectUuids]
    | cons e rest =>
      cases e with
      | mk category vocabulary subcategories =>
        rw [tidy_taxonomies.eq_def]
        dsimp only
        cases category with
        | none =>
          cases vocabulary with
          | none =>
            cases subcategories with
            | none =>
              rw [collectUuids.eq_def]
              dsimp only
              obtain ⟨hr1, hr2, hr3⟩ := ih rest c (by simp at hsz; omega)
              obtain ⟨hb, hp⟩ := uuid_four_segments [] [] [] _ c c c c _
                le_rfl le_rfl le_rfl hr1 (by simp) (by simp) (by simp) hr2
                (by simp) (by simp) (by simp) hr3
              exact ⟨by omega, hb, hp⟩
            | some l =>
              rw [collectUuids.eq_def]
              dsimp only
              obtain ⟨hs1, hs2, hs3⟩ := ih l c (by simp at hsz; omega)
              obtain ⟨hr1, hr2, hr3⟩ := ih rest _ (by simp at hsz; omega)
              obtain ⟨hb, hp⟩ := uuid_four_segments [] [] _ _ c c c _ _
                le_rfl le_rfl hs1 hr1 (by simp) (by simp) hs2 hr2
                (by simp) (by simp) hs3 hr3
              exact ⟨by omega, hb, hp⟩
          | some phrases =>
            obtain ⟨hv1, hv2, hv3⟩ := tidyVocabulary_uuids phrases c
            have hvb : ∀ u ∈ ((tidyVocabulary phrases c).1.map fun t => t.uuid),
                c ≤ u ∧ u < (tidyVocabulary phrases c).2 := by
              intro u hu
              rw [List.mem_map] at hu
              obtain ⟨t, ht, rfl⟩ := hu
              exact hv2 t ht
            cases subcategories with
            | none =>
              rw [collectUuids.eq_def]
              dsimp only
              obtain ⟨hr1, hr2, hr3⟩ := ih rest _ (by simp at hsz; omega)
              obtain ⟨hb, hp⟩ := uuid_four_segments [] _ [] _ c c _ _ _
                le_rfl hv1 le_rfl hr1 (by simp) hvb (by simp) hr2
                (by simp) hv3 (by simp) hr3
              exact ⟨by omega, hb, hp⟩
            | some l =>
              rw [collectUuids.eq_def]
              dsimp only
              obtain ⟨hs1, hs2, hs3⟩ := ih l _ (by simp at hsz; omega)
              obtain ⟨hr1, hr2, hr3⟩ := ih rest _ (by simp at hsz; omega)
              obtain ⟨hb, hp⟩ := uuid_four_segments [] _ _ _ c c _ _ _
                le_rfl hv1 hs1 hr1 (by simp) hvb hs2 hr2
                (by simp) hv3 hs3 hr3
              exact ⟨by omega, hb, hp⟩
        | some name =>
          have hcb : ∀ u ∈ [c], c ≤ u ∧ u < c + 1 := by
            intro u hu
            rw [List.mem_singleton] at hu
            omega
          cases vocabulary with
          | none =>
            cases subcategories with
            | none =>
              rw [collectUuids.eq_def]
              dsimp only
              obtain ⟨hr1, hr2, hr3⟩ := ih rest (c + 1) (by simp at hsz; omega)
              obtain ⟨hb, hp⟩ := uuid_four_segments [c] [] [] _ c (c + 1) (c + 1) (c + 1) _
                (by omega) le_rfl le_rfl hr1 hcb (by simp) (by simp) hr2
                (List.pairwise_singleton _ _) (by simp) (by simp) hr3
              exact ⟨by omega, hb, hp⟩
            | some l =>
              rw [collectUuids.eq_def]
              dsimp only
              obtain ⟨hs1, hs2, hs3⟩ := ih l (c + 1) (by simp at hsz; omega)
              obtain ⟨hr1, hr2, hr3⟩ := ih rest _ (by simp at hsz; omega)
              obtain ⟨hb, hp⟩ := uuid_four_segments [c] [] _ _ c (c + 1) (c + 1) _ _
                (by omega) le_rfl hs1 hr1 hcb (by simp) hs2 hr2
                (List.pairwise_singleton _ _) (by simp) hs3 hr3
              exact ⟨by omega, hb, hp⟩
          | some phrases =>
            obtain ⟨hv1, hv2, hv3⟩ := tidyVocabulary_uuids phrases (c + 1)
            have hvb : ∀ u ∈ ((tidyVocabulary phrases (c + 1)).1.map fun t => t.uuid),
                c + 1 ≤ u ∧ u < (tidyVocabulary phrases (c + 1)).2 := by
              intro u hu
              rw [List.mem_map] at hu
              obtain ⟨t, ht, rfl⟩ := hu
              exact hv2 t ht
            cases subcategories with
            | none =>
              rw [collectUuids.eq_def]
              dsimp only
              obtain ⟨hr1, hr2, hr3⟩ := ih rest _ (by simp at hsz; omega)
              obtain ⟨hb, hp⟩ := uuid_four_segments [c] _ [] _ c (c + 1) _ _ _
                (by omega) hv1 le_rfl hr1 hcb hvb (by simp) hr2
                (List.pairwise_singleton _ _) hv3 (by simp) hr3
              exact ⟨by omega, hb, hp⟩
            | some l =>
              rw [collectUuids.eq_def]
              dsimp only
              obtain ⟨hs1, hs2, hs3⟩ := ih l _ (by simp at hsz; omega)
              obtain ⟨hr1, hr2, hr3⟩ := ih rest _ (by simp at hsz; omega)
              obtain ⟨hb, hp⟩ := uuid_four_segments [c] _ _ _ c (c + 1) _ _ _
                (by omega) hv1 hs1 hr1 hcb hvb hs2 hr2
                (List.pairwise_singleton _ _) hv3 hs3 hr3
              exact ⟨by omega, hb, hp⟩

/-- C8: every vocabulary token produced by `tidy_taxonomies` is lower-case
(no basic-latin capital letter survives), contains no asterisk and no
whitespace (multi-word phrases are split into single-word tokens), and is
none of the stop-words `and`, `&`, `or`; and the identifiers assigned to
categories and vocabulary tokens are pairwise distinct (fresh uuid per
node, with `uuid.uuid4` modelled as a fresh-counter supply). -/
theorem tidy_taxonomies_normalization (data : List TaxEntry) (c : Nat) :
    (∀ t ∈ collectVocabTerms (tidy_taxonomies data c).1,
      (∀ ch ∈ t.name.data,
        ¬(65 ≤ ch.toNat ∧ ch.toNat ≤ 90) ∧ ch ≠ '*' ∧ ch.isWhitespace = false) ∧
      t.name ∉ stopwords) ∧
    (collectUuids (tidy_taxonomies data c).1).Nodup :=
  ⟨tidy_names_aux (sizeOf data) data c le_rfl,
   List.Pairwise.imp (fun h => Nat.ne_of_lt h)
     (tidy_uuids_aux (sizeOf data) data c le_rfl).2.2⟩

end CovidRumours
